import Mathlib

/-!
NeoNotate Note Store: shallow embedding and verification.

This file embeds the `NoteManager` class of `src/smc.py` as pure Lean
definitions and proves properties of the embedded operations.

Modelling conventions:

* A Python `dict` (which preserves insertion order and has unique keys) is
  modelled as an association list `List (String × α)`; `alookup` returns the
  first binding, `aset` mirrors `d[k] = v` (update in place, or append a new
  binding at the end), matching CPython dict semantics.
* `str.strip()` is `pyStrip`, `str.split()` (no argument: split on runs of
  whitespace, dropping empty tokens) is `pySplit`, and `str.lower()` is
  `pyLower`, all defined at the character-list level.  `Char.toLower` is the
  ASCII lowering, which agrees with Python `str.lower` on the ASCII inputs
  the program manipulates.
* Printing is not modelled; an operation that only prints and returns is a
  state-preserving no-op.  File I/O is modelled by the pure JSON document
  (`Json`) that `save_data` writes and `load_data` reads.
* A Python exception that escapes an operation is modelled by `Option`:
  `none` means the call raised (the program has no handler for `ValueError`,
  so the process dies).  In particular `max(scores, key=scores.get)` on the
  empty dict raises `ValueError`, hence `categorize_notes` returns
  `Option String`.
-/

/-- A note as stored in `self.notes`: `{'content': ..., 'category': ...}`. -/
structure Note where
  content : String
  category : String
deriving DecidableEq, Repr

/-- The in-memory state of a `NoteManager`: the three collections
`self.notes`, `self.categories`, `self.keyword_weights`.  (The `data_file`
path only matters for I/O, which is modelled separately.) -/
structure NoteState where
  notes : List Note
  categories : List (String × List String)
  keyword_weights : List (String × Int)
deriving DecidableEq, Repr

/-- First-binding lookup in an association list: Python `d[k]` / `d.get(k)`. -/
def alookup {α : Type} (l : List (String × α)) (k : String) : Option α :=
  match l with
  | [] => none
  | (k', v) :: rest => if k' = k then some v else alookup rest k

/-- Python `d.get(k, dflt)`. -/
def alookupD {α : Type} (l : List (String × α)) (k : String) (dflt : α) : α :=
  (alookup l k).getD dflt

/-- Python `d[k] = v` on a dict: overwrite the existing binding in place,
otherwise append a fresh binding at the end (CPython insertion order). -/
def aset {α : Type} (l : List (String × α)) (k : String) (v : α) :
    List (String × α) :=
  match l with
  | [] => [(k, v)]
  | (k', v') :: rest => if k' = k then (k, v) :: rest else (k', v') :: aset rest k v

/-- Python `str.strip()` on the character list: drop leading whitespace, then
drop trailing whitespace. -/
def stripChars (cs : List Char) : List Char :=
  ((cs.dropWhile Char.isWhitespace).reverse.dropWhile Char.isWhitespace).reverse

/-- Python `str.strip()`. -/
def pyStrip (s : String) : String :=
  String.mk (stripChars s.data)

/-- Helper for `pySplit`: `acc` is the (reversed) current token. -/
def splitWsAux : List Char → List Char → List (List Char)
  | [], [] => []
  | [], acc => [acc.reverse]
  | c :: cs, acc =>
    if c.isWhitespace then
      match acc with
      | [] => splitWsAux cs []
      | _ => acc.reverse :: splitWsAux cs []
    else splitWsAux cs (c :: acc)

/-- Python `str.split()` with no separator: split on runs of whitespace and
drop empty tokens. -/
def pySplit (s : String) : List String :=
  (splitWsAux s.data []).map String.mk

/-- Python `str.lower()` (ASCII; agrees with `Char.toLower` per character). -/
def pyLower (s : String) : String :=
  String.mk (s.data.map Char.toLower)

/-- The JSON documents the program reads and writes
(`json.load` / `json.dump`). -/
inductive Json where
  | str : String → Json
  | num : Int → Json
  | arr : List Json → Json
  | obj : List (String × Json) → Json

/-- Model of `NoteManager.add_category`: trim the name, trim each keyword and drop the
empty ones; reject an empty name, an empty keyword list, or a duplicate name
(each a printed error and a state-preserving no-op). -/
def add_category (st : NoteState) (category : String) (keywords : List String) :
    NoteState :=
  let category := pyStrip category
  let keywords_list := (keywords.map pyStrip).filter (fun kw => kw ≠ "")
  if category = "" then st
  else if keywords_list = [] then st
  else if (alookup st.categories category).isSome then st
  else { st with categories := st.categories ++ [(category, keywords_list)] }

/-- The score accumulated for one category by the nested loops of
`categorize_notes`: each (lowered) token that occurs among the lowered
keywords adds `keyword_weights.get(word, 1)`.  (The Python code iterates
words in the outer loop and categories in the inner one; the per-category
additions commute, so the per-category sum is the same.) -/
def categoryScore (weights : List (String × Int)) (words : List String)
    (kws : List String) : Int :=
  words.foldl
    (fun acc w => if w ∈ kws.map pyLower then acc + alookupD weights w 1 else acc)
    0

/-- Python `max(d, key=d.get)` over an association list: the first key
attaining the maximal value (later entries replace the current best only
when strictly greater), `none` on the empty dict (`ValueError`). -/
def maxKey (l : List (String × Int)) : Option (String × Int) :=
  match l with
  | [] => none
  | (k, v) :: rest =>
    match maxKey rest with
    | none => some (k, v)
    | some (k', v') => if v' > v then some (k', v') else some (k, v)

/-- Model of `NoteManager.categorize_notes`.  `none` models the uncaught `ValueError`
raised by `max` when `self.categories` (hence `scores`) is empty. -/
def categorize_notes (st : NoteState) (note_content : String) : Option String :=
  let words := (pySplit note_content).map pyLower
  let scores := st.categories.map (fun p => (p.1, categoryScore st.keyword_weights words p.2))
  match maxKey scores with
  | none => none
  | some (c, v) => if v = 0 then some "Others" else some c

/-- The loop body of `update_keyword_weights`: for each word in turn, a word
that occurs (case-sensitively) among the category's keywords gets its
global weight bumped by 1, starting from `self.keyword_weights.get(word, 0)`. -/
def bumpWeights (kws : List String) (ws : List (String × Int)) :
    List String → List (String × Int)
  | [] => ws
  | w :: rest =>
    bumpWeights kws (if w ∈ kws then aset ws w (alookupD ws w 0 + 1) else ws) rest

/-- Model of `NoteManager.update_keyword_weights`: no-op (printed error) when
the category is not registered; otherwise run `bumpWeights` over the words. -/
def update_keyword_weights (st : NoteState) (words : List String)
    (category : String) : NoteState :=
  match alookup st.categories category with
  | none => st
  | some kws => { st with keyword_weights := bumpWeights kws st.keyword_weights words }

/-- Model of `NoteManager.add_note`: trim; empty content is a printed error and a
no-op; otherwise categorize (which may raise: `none`), append the note, and
update the keyword weights with the raw whitespace-split tokens. -/
def add_note (st : NoteState) (note_content : String) : Option NoteState :=
  let note_content := pyStrip note_content
  if note_content = "" then some st
  else
    match categorize_notes st note_content with
    | none => none
    | some category =>
      let st := { st with notes := st.notes ++ [⟨note_content, category⟩] }
      some (update_keyword_weights st (pySplit note_content) category)

/-- Boolean test for `pat in s` on Python strings (substring containment). -/
def leadsList (pat s : List Char) : Bool :=
  match pat, s with
  | [], _ => true
  | _ :: _, [] => false
  | a :: pa, b :: sb => a = b && leadsList pa sb

/-- Python `pat in s` for strings: `pat` occurs contiguously in `s`. -/
def strContains (s pat : String) : Bool :=
  s.data.tails.any (fun t => leadsList pat.data t)

/-- Model of `NoteManager.search_notes`: empty trimmed keyword is a printed error with
result `[]`; otherwise keep (in order) the notes whose content contains the
keyword case-insensitively. -/
def search_notes (st : NoteState) (keyword : String) : List Note :=
  let keyword := pyStrip keyword
  if keyword = "" then []
  else st.notes.filter (fun note => strContains (pyLower note.content) (pyLower keyword))

/-- The JSON value for one note, as `json.dump` serializes the dict
`{'content': ..., 'category': ...}`. -/
def encodeNote (n : Note) : Json :=
  .obj [("content", .str n.content), ("category", .str n.category)]

/-- Model of `NoteManager.save_data`: the JSON document written to the data file,
with the fixed keys `notes`, `categories`, `keyword_weights`. -/
def save_data (st : NoteState) : Json :=
  .obj
    [("notes", .arr (st.notes.map encodeNote)),
     ("categories", .obj (st.categories.map (fun p => (p.1, .arr (p.2.map Json.str))))),
     ("keyword_weights", .obj (st.keyword_weights.map (fun p => (p.1, .num p.2))))]

/-- Decode a list elementwise, failing if any element fails. -/
def decodeList {α : Type} (f : Json → Option α) : List Json → Option (List α)
  | [] => some []
  | j :: js =>
    match f j, decodeList f js with
    | some a, some as => some (a :: as)
    | _, _ => none

/-- Decode the JSON of one note. -/
def decodeNote : Json → Option Note
  | .obj [("content", .str c), ("category", .str k)] => some ⟨c, k⟩
  | _ => none

/-- Decode one category binding (name ↦ list of keyword strings). -/
def decodeCat : String × Json → Option (String × List String)
  | (name, .arr ks) =>
    match decodeList (fun j => match j with | .str s => some s | _ => none) ks with
    | some ks' => some (name, ks')
    | none => none
  | _ => none

/-- Decode one keyword-weight binding. -/
def decodeWeight : String × Json → Option (String × Int)
  | (w, .num n) => some (w, n)
  | _ => none

/-- Decode a list of object bindings elementwise. -/
def decodeBindings {α : Type} (f : String × Json → Option α) :
    List (String × Json) → Option (List α)
  | [] => some []
  | p :: ps =>
    match f p, decodeBindings f ps with
    | some a, some as => some (a :: as)
    | _, _ => none

/-- Model of `NoteManager.load_data`, reading back a document of the shape
`save_data` writes (the Python code performs no validation beyond
`json.load`; this is the typed reading of the saved format). -/
def load_data (j : Json) : Option NoteState :=
  match j with
  | .obj [("notes", .arr ns), ("categories", .obj cs), ("keyword_weights", .obj ws)] =>
    match decodeList decodeNote ns, decodeBindings decodeCat cs,
        decodeBindings decodeWeight ws with
    | some notes, some cats, some weights => some ⟨notes, cats, weights⟩
    | _, _, _ => none
  | _ => none

/-- Payload of `NoteManager.export_notes`: the JSON array of the notes alone. -/
def export_notes (st : NoteState) : Json :=
  .arr (st.notes.map encodeNote)

/-- Number of occurrences of a string in a list (used to characterise the
cumulative effect of `bumpWeights`). -/
def occCount (w : String) : List String → Nat
  | [] => 0
  | t :: ts => (if t = w then 1 else 0) + occCount w ts

/-- Does the string contain an ASCII uppercase letter? -/
def hasUpper (s : String) : Bool :=
  s.data.any Char.isUpper

/-- The public operations reachable from the interactive menu that touch the
store (View/Search/Export leave the three collections untouched: they only
print or write a separate file). -/
inductive Op where
  | addCategory : String → List String → Op
  | addNote : String → Op
  | viewNotes : Op
  | searchNotes : String → Op
  | exportNotes : String → Op

/-- Run a single menu operation on the store (`none` = the call raised). -/
def execOp (st : NoteState) : Op → Option NoteState
  | .addCategory name kws => some (add_category st name kws)
  | .addNote content => add_note st content
  | .viewNotes => some st
  | .searchNotes _ => some st
  | .exportNotes _ => some st

/-- Run a sequence of menu operations; an uncaught exception aborts the run. -/
def runOps : NoteState → List Op → Option NoteState
  | st, [] => some st
  | st, op :: ops =>
    match execOp st op with
    | none => none
    | some st' => runOps st' ops

/-- The store as `__init__` builds it: all three collections empty. -/
def emptyStore : NoteState := ⟨[], [], []⟩

/-- Every stored note is filed either under a registered category or under
the sentinel `"Others"`. -/
def noteInv (st : NoteState) : Prop :=
  ∀ n ∈ st.notes, n.category = "Others" ∨ (alookup st.categories n.category).isSome

instance (st : NoteState) : Decidable (noteInv st) := by
  unfold noteInv; infer_instance

/-! Association-list lemmas. -/

theorem alookup_aset_self {α : Type} (l : List (String × α)) (k : String) (v : α) :
    alookup (aset l k v) k = some v := by
  induction l with
  | nil => simp [aset, alookup]
  | cons p rest ih =>
    obtain ⟨k', v'⟩ := p
    by_cases h : k' = k
    · simp [aset, alookup, h]
    · simp [aset, alookup, h, ih]

theorem alookup_aset_ne {α : Type} (l : List (String × α)) (k : String) (v : α)
    (k' : String) (h : k ≠ k') : alookup (aset l k v) k' = alookup l k' := by
  induction l with
  | nil => simp [aset, alookup, h]
  | cons p rest ih =>
    obtain ⟨a, b⟩ := p
    by_cases ha : a = k
    · subst ha
      simp [aset, alookup, h]
    · simp [aset, alookup, ha, ih]

theorem alookup_append_of_none {α : Type} (l m : List (String × α)) (k : String)
    (h : alookup l k = none) : alookup (l ++ m) k = alookup m k := by
  induction l with
  | nil => simp
  | cons p rest ih =>
    obtain ⟨a, b⟩ := p
    by_cases ha : a = k
    · simp [alookup, ha] at h
    · simp only [alookup, ha, if_false, List.cons_append] at h ⊢
      simp [alookup, ha]
      exact ih h

theorem alookup_append_of_some {α : Type} (l m : List (String × α)) (k : String)
    (v : α) (h : alookup l k = some v) : alookup (l ++ m) k = some v := by
  induction l with
  | nil => simp [alookup] at h
  | cons p rest ih =>
    obtain ⟨a, b⟩ := p
    by_cases ha : a = k
    · simp [alookup, ha] at h ⊢
      exact h
    · simp [alookup, ha] at h ⊢
      exact ih h

theorem occCount_eq_zero (w : String) (ts : List String) (h : w ∉ ts) :
    occCount w ts = 0 := by
  induction ts with
  | nil => rfl
  | cons t ts ih =>
    simp only [List.mem_cons, not_or] at h
    have ht : t ≠ w := fun e => h.1 e.symm
    simp [occCount, ht, ih h.2]

/-- Cumulative effect of the `update_keyword_weights` loop on one key. -/
theorem alookup_bumpWeights (kws : List String) (ts : List String)
    (ws : List (String × Int)) (w : String) :
    alookup (bumpWeights kws ws ts) w =
      if w ∈ kws ∧ w ∈ ts then some (alookupD ws w 0 + occCount w ts)
      else alookup ws w := by
  induction ts generalizing ws with
  | nil => simp [bumpWeights]
  | cons t ts ih =>
    simp only [bumpWeights]
    rw [ih]
    by_cases htw : t = w
    · subst htw
      by_cases hk : t ∈ kws
      · rw [if_pos hk]
        have ha : alookup (aset ws t (alookupD ws t 0 + 1)) t
            = some (alookupD ws t 0 + 1) := alookup_aset_self ..
        have hd : alookupD (aset ws t (alookupD ws t 0 + 1)) t 0
            = alookupD ws t 0 + 1 := by
          rw [alookupD, ha]
          rfl
        by_cases hts : t ∈ ts
        · rw [if_pos ⟨hk, hts⟩, hd, if_pos ⟨hk, List.mem_cons_self t ts⟩]
          simp only [occCount, if_pos rfl]
          congr 1
          push_cast
          ring
        · rw [if_neg (fun hcon => hts hcon.2), ha,
            if_pos ⟨hk, List.mem_cons_self t ts⟩]
          simp [occCount, occCount_eq_zero t ts hts]
      · rw [if_neg hk, if_neg (fun hcon => hk hcon.1),
          if_neg (fun hcon => hk hcon.1)]
    · have hne : ¬ (w = t) := fun e => htw e.symm
      have hlook :
          alookup (if t ∈ kws then aset ws t (alookupD ws t 0 + 1) else ws) w
            = alookup ws w := by
        by_cases hk : t ∈ kws
        · rw [if_pos hk]
          exact alookup_aset_ne _ _ _ _ htw
        · rw [if_neg hk]
      have hd :
          alookupD (if t ∈ kws then aset ws t (alookupD ws t 0 + 1) else ws) w 0
            = alookupD ws w 0 := by
        rw [alookupD, hlook]
        rfl
      have hocc : occCount w (t :: ts) = occCount w ts := by
        simp [occCount, htw]
      rw [hd, hlook, hocc]
      by_cases hc : w ∈ kws ∧ w ∈ ts
      · rw [if_pos hc, if_pos ⟨hc.1, List.mem_cons_of_mem t hc.2⟩]
      · rw [if_neg hc, if_neg]
        rintro ⟨h1, h2⟩
        rcases List.mem_cons.mp h2 with h2 | h2
        · exact hne h2
        · exact hc ⟨h1, h2⟩

/-! Claim theorems C1, C2, C5. -/

/-- C1: the claim says every public Note Store operation completes without
raising, in particular `addNote`/`categorize` when no category has been
registered.  The code violates this: with `self.categories` empty, `scores`
is the empty dict and `max(scores, key=scores.get)` raises an uncaught
`ValueError` (modelled by `none`), so `add_note` on a fresh store dies
instead of degrading to a no-op or returning `"Others"`. -/
theorem add_note_raises_on_empty_store :
    add_note ⟨[], [], []⟩ "hello" = none ∧
      categorize_notes ⟨[], [], []⟩ "hello" = none := by
  constructor <;> rfl

/-- C2: from categories `{"Work": ["meeting", "deadline"]}` and empty
weights, `add_note "Schedule a meeting tomorrow"` files the note under
`"Work"` and sets the weight of `"meeting"` to 1, and a second
`add_note "Another meeting today"` again files under `"Work"` and raises the
weight of `"meeting"` to 2. -/
theorem addNote_example_scenario :
    add_note ⟨[], [("Work", ["meeting", "deadline"])], []⟩
        "Schedule a meeting tomorrow"
      = some ⟨[⟨"Schedule a meeting tomorrow", "Work"⟩],
          [("Work", ["meeting", "deadline"])], [("meeting", 1)]⟩ ∧
    add_note ⟨[⟨"Schedule a meeting tomorrow", "Work"⟩],
          [("Work", ["meeting", "deadline"])], [("meeting", 1)]⟩
        "Another meeting today"
      = some ⟨[⟨"Schedule a meeting tomorrow", "Work"⟩,
            ⟨"Another meeting today", "Work"⟩],
          [("Work", ["meeting", "deadline"])], [("meeting", 2)]⟩ := by
  constructor <;> rfl

/-- C5: `update_keyword_weights` is a no-op on the whole state when the
category is not registered (also when it is `"Others"`); otherwise it leaves
notes and categories alone and bumps the global weight of each token
occurrence that case-sensitively equals one of the category's keywords by 1
(so a token occurring `occCount` times gains `occCount`), treating an absent
weight as 0, and leaves every other binding unchanged. -/
theorem update_keyword_weights_spec (st : NoteState) (words : List String)
    (category : String) :
    (alookup st.categories category = none →
      update_keyword_weights st words category = st) ∧
    (∀ kws, alookup st.categories category = some kws →
      (update_keyword_weights st words category).notes = st.notes ∧
      (update_keyword_weights st words category).categories = st.categories ∧
      ∀ w, alookup (update_keyword_weights st words category).keyword_weights w =
        if w ∈ kws ∧ w ∈ words then
          some (alookupD st.keyword_weights w 0 + occCount w words)
        else alookup st.keyword_weights w) := by
  constructor
  · intro h
    simp [update_keyword_weights, h]
  · intro kws h
    simp [update_keyword_weights, h, alookup_bumpWeights]

/-- Witness for C5 at concrete inputs: updating for the unregistered
category `"Others"` changes nothing, and updating twice-occurring token
`"meeting"` for the registered `"Work"` sets its weight to 2. -/
theorem update_keyword_weights_spec_witness :
    update_keyword_weights ⟨[], [("Work", ["meeting"])], []⟩ ["meeting"] "Others"
        = ⟨[], [("Work", ["meeting"])], []⟩ ∧
    alookup (update_keyword_weights ⟨[], [("Work", ["meeting"])], []⟩
        ["meeting", "meeting"] "Work").keyword_weights "meeting" = some 2 := by
  constructor
  · exact (update_keyword_weights_spec ⟨[], [("Work", ["meeting"])], []⟩
      ["meeting"] "Others").1 (by decide)
  · have h := ((update_keyword_weights_spec ⟨[], [("Work", ["meeting"])], []⟩
      ["meeting", "meeting"] "Work").2 ["meeting"] (by decide)).2.2 "meeting"
    rw [h]
    decide

/-! Lemmas about `maxKey`, the model of `max(scores, key=scores.get)`. -/

theorem maxKey_mem (l : List (String × Int)) (p : String × Int)
    (h : maxKey l = some p) : p ∈ l := by
  induction l generalizing p with
  | nil => simp [maxKey] at h
  | cons q rest ih =>
    obtain ⟨k, v⟩ := q
    simp only [maxKey] at h
    cases hm : maxKey rest with
    | none =>
      rw [hm] at h
      cases h
      exact List.mem_cons_self _ _
    | some q' =>
      obtain ⟨k', v'⟩ := q'
      rw [hm] at h
      have h' : (if v' > v then some (k', v') else some (k, v)) = some p := h
      by_cases hv : v' > v
      · rw [if_pos hv] at h'
        cases h'
        exact List.mem_cons_of_mem _ (ih _ hm)
      · rw [if_neg hv] at h'
        cases h'
        exact List.mem_cons_self _ _

/-- The first entry whose value strictly dominates everything before it and
weakly dominates everything after it is the one `max(..., key=...)` picks. -/
theorem maxKey_first_max (l₁ : List (String × Int)) (c : String) (v : Int)
    (l₂ : List (String × Int))
    (h₁ : ∀ p ∈ l₁, p.2 < v) (h₂ : ∀ p ∈ l₂, p.2 ≤ v) :
    maxKey (l₁ ++ (c, v) :: l₂) = some (c, v) := by
  induction l₁ with
  | nil =>
    simp only [List.nil_append, maxKey]
    cases hm : maxKey l₂ with
    | none => rfl
    | some q =>
      obtain ⟨k', v'⟩ := q
      have hle : v' ≤ v := h₂ _ (maxKey_mem _ _ hm)
      show (if v' > v then some (k', v') else some (c, v)) = some (c, v)
      rw [if_neg (not_lt.mpr hle)]
  | cons q l₁ ih =>
    obtain ⟨k, w⟩ := q
    have hw : w < v := h₁ (k, w) (List.mem_cons_self _ _)
    have ih' := ih (fun p hp => h₁ p (List.mem_cons_of_mem _ hp))
    simp only [List.cons_append, maxKey]
    rw [show (l₁.append ((c, v) :: l₂)) = l₁ ++ (c, v) :: l₂ from rfl, ih']
    show (if v > w then some (c, v) else some (k, w)) = some (c, v)
    rw [if_pos hw]

/-- C3: whenever the category scores computed by `categorize_notes` list a
category `c` with positive score `v` that every earlier category falls
strictly below and no later category exceeds — in particular for a tie on
the maximal positive score among two or more categories — the note is filed
under `c`, the first maximal category in insertion order. -/
theorem categorize_first_max_tie_break (st : NoteState) (content : String)
    (l₁ : List (String × Int)) (c : String) (v : Int) (l₂ : List (String × Int))
    (hsc : st.categories.map
        (fun p => (p.1, categoryScore st.keyword_weights
          ((pySplit content).map pyLower) p.2)) = l₁ ++ (c, v) :: l₂)
    (hv : 0 < v)
    (h₁ : ∀ p ∈ l₁, p.2 < v) (h₂ : ∀ p ∈ l₂, p.2 ≤ v) :
    categorize_notes st content = some c := by
  show (match maxKey (st.categories.map
      (fun p => (p.1, categoryScore st.keyword_weights
        ((pySplit content).map pyLower) p.2))) with
    | none => none
    | some (c, v) => if v = 0 then some "Others" else some c) = some c
  rw [hsc, maxKey_first_max l₁ c v l₂ h₁ h₂]
  show (if v = 0 then some "Others" else some c) = some c
  rw [if_neg (by omega)]

/-- Witness for C3: categories `A` and `B` both score 1 on the note `"x"`;
the first in insertion order, `A`, wins. -/
theorem categorize_first_max_tie_break_witness :
    categorize_notes ⟨[], [("A", ["x"]), ("B", ["x"])], []⟩ "x" = some "A" :=
  categorize_first_max_tie_break ⟨[], [("A", ["x"]), ("B", ["x"])], []⟩ "x"
    [] "A" 1 [("B", 1)] (by decide) (by decide) (by decide) (by decide)

/-! Tokenizer lemmas: stripping first does not change the token list. -/

theorem splitWsAux_dropWhile (cs : List Char) :
    splitWsAux (cs.dropWhile Char.isWhitespace) [] = splitWsAux cs [] := by
  induction cs with
  | nil => rfl
  | cons c cs ih =>
    by_cases hw : c.isWhitespace
    · rw [List.dropWhile_cons_of_pos hw]
      rw [ih]
      simp [splitWsAux, hw]
    · rw [List.dropWhile_cons_of_neg hw]

theorem splitWsAux_all_ws (tail : List Char)
    (h : ∀ c ∈ tail, c.isWhitespace) (acc : List Char) :
    splitWsAux tail acc = splitWsAux [] acc := by
  induction tail generalizing acc with
  | nil => rfl
  | cons t tail ih =>
    have ht : t.isWhitespace := h t (List.mem_cons_self _ _)
    have h' : ∀ c ∈ tail, c.isWhitespace := fun c hc => h c (List.mem_cons_of_mem _ hc)
    have htl : splitWsAux tail [] = [] := ih h' []
    cases acc with
    | nil => simp [splitWsAux, ht, htl]
    | cons a as => simp [splitWsAux, ht, htl]

theorem splitWsAux_append_ws (tail : List Char)
    (h : ∀ c ∈ tail, c.isWhitespace) (cs : List Char) (acc : List Char) :
    splitWsAux (cs ++ tail) acc = splitWsAux cs acc := by
  induction cs generalizing acc with
  | nil =>
    rw [List.nil_append]
    exact splitWsAux_all_ws tail h acc
  | cons c cs ih =>
    by_cases hw : c.isWhitespace
    · cases acc with
      | nil => simp [splitWsAux, hw, ih]
      | cons a as => simp [splitWsAux, hw, ih]
    · simp [splitWsAux, hw, ih]

/-- Stripping a string first leaves Python `split()` unchanged. -/
theorem pySplit_pyStrip (s : String) : pySplit (pyStrip s) = pySplit s := by
  show (splitWsAux (stripChars s.data) []).map String.mk
    = (splitWsAux s.data []).map String.mk
  congr 1
  unfold stripChars
  set r := s.data.dropWhile Char.isWhitespace with hr
  have hsplit : r.reverse.takeWhile Char.isWhitespace
      ++ r.reverse.dropWhile Char.isWhitespace = r.reverse :=
    List.takeWhile_append_dropWhile _ _
  have hdecomp : (r.reverse.dropWhile Char.isWhitespace).reverse
      ++ (r.reverse.takeWhile Char.isWhitespace).reverse = r := by
    rw [← List.reverse_append, hsplit, List.reverse_reverse]
  have hws : ∀ c ∈ (r.reverse.takeWhile Char.isWhitespace).reverse,
      c.isWhitespace := by
    intro c hc
    exact List.mem_takeWhile_imp (List.mem_reverse.mp hc)
  calc splitWsAux (r.reverse.dropWhile Char.isWhitespace).reverse []
      = splitWsAux ((r.reverse.dropWhile Char.isWhitespace).reverse
          ++ (r.reverse.takeWhile Char.isWhitespace).reverse) [] :=
        (splitWsAux_append_ws _ hws _ []).symm
    _ = splitWsAux r [] := by rw [hdecomp]
    _ = splitWsAux s.data [] := splitWsAux_dropWhile s.data

/-! Lemmas for the no-keyword-match case. -/

theorem categoryScore_foldl_const (kws : List String) (weights : List (String × Int))
    (words : List String) (h : ∀ w ∈ words, w ∉ kws.map pyLower) (acc : Int) :
    words.foldl
      (fun acc w => if w ∈ kws.map pyLower then acc + alookupD weights w 1 else acc)
      acc = acc := by
  induction words generalizing acc with
  | nil => rfl
  | cons w words ih =>
    have hw : w ∉ kws.map pyLower := h w (List.mem_cons_self _ _)
    have h' : ∀ w' ∈ words, w' ∉ kws.map pyLower :=
      fun w' hw' => h w' (List.mem_cons_of_mem _ hw')
    simp only [List.foldl_cons, if_neg hw]
    exact ih h' acc

theorem categoryScore_eq_zero (kws : List String) (weights : List (String × Int))
    (words : List String) (h : ∀ w ∈ words, w ∉ kws.map pyLower) :
    categoryScore weights words kws = 0 :=
  categoryScore_foldl_const kws weights words h 0

theorem maxKey_cons_isSome (q : String × Int) (l : List (String × Int)) :
    ∃ p, maxKey (q :: l) = some p := by
  obtain ⟨k, v⟩ := q
  simp only [maxKey]
  cases maxKey l with
  | none => exact ⟨(k, v), rfl⟩
  | some q' =>
    obtain ⟨k', v'⟩ := q'
    by_cases hv : v' > v
    · refine ⟨(k', v'), ?_⟩
      show (if v' > v then some (k', v') else some (k, v)) = some (k', v')
      rw [if_pos hv]
    · refine ⟨(k, v), ?_⟩
      show (if v' > v then some (k', v') else some (k, v)) = some (k, v)
      rw [if_neg hv]

theorem alookup_mem {α : Type} (l : List (String × α)) (k : String) (v : α)
    (h : alookup l k = some v) : (k, v) ∈ l := by
  induction l with
  | nil => simp [alookup] at h
  | cons p rest ih =>
    obtain ⟨a, b⟩ := p
    have hun : alookup ((a, b) :: rest) k
        = if a = k then some b else alookup rest k := rfl
    rw [hun] at h
    by_cases ha : a = k
    · rw [if_pos ha] at h
      cases h
      subst ha
      exact List.mem_cons_self _ _
    · rw [if_neg ha] at h
      exact List.mem_cons_of_mem _ (ih h)

/-- When no token of the note case-insensitively matches any registered
keyword and at least one category exists, every score is 0 and
`categorize_notes` falls back to the sentinel `"Others"`. -/
theorem categorize_no_match (st : NoteState) (content : String)
    (hne : st.categories ≠ [])
    (H : ∀ w ∈ pySplit content, ∀ p ∈ st.categories, pyLower w ∉ p.2.map pyLower) :
    categorize_notes st content = some "Others" := by
  have hmap : st.categories.map
      (fun p => (p.1, categoryScore st.keyword_weights
        ((pySplit content).map pyLower) p.2))
      = st.categories.map (fun p => (p.1, (0 : Int))) := by
    apply List.map_congr_left
    intro p hp
    have : categoryScore st.keyword_weights ((pySplit content).map pyLower) p.2 = 0 := by
      apply categoryScore_eq_zero
      intro w hw
      obtain ⟨t, ht, rfl⟩ := List.mem_map.mp hw
      exact H t ht p hp
    rw [this]
  show (match maxKey (st.categories.map
      (fun p => (p.1, categoryScore st.keyword_weights
        ((pySplit content).map pyLower) p.2))) with
    | none => none
    | some (c, v) => if v = 0 then some "Others" else some c) = some "Others"
  rw [hmap]
  cases hc : st.categories with
  | nil => exact absurd hc hne
  | cons q rest =>
    obtain ⟨p, hp⟩ := maxKey_cons_isSome
      ((q.1, (0 : Int))) (rest.map (fun p => (p.1, (0 : Int))))
    obtain ⟨k, v⟩ := p
    have hv : v = 0 := by
      have hmem := maxKey_mem _ _ hp
      rcases List.mem_cons.mp hmem with he | he
      · exact congrArg Prod.snd he
      · obtain ⟨a, _, ha⟩ := List.mem_map.mp he
        exact (congrArg Prod.snd ha).symm
    rw [List.map_cons, hp]
    show (if v = 0 then some "Others" else some k) = some "Others"
    rw [if_pos hv]

theorem bumpWeights_no_match (kws : List String) (ws : List (String × Int))
    (ts : List String) (h : ∀ t ∈ ts, t ∉ kws) : bumpWeights kws ws ts = ws := by
  induction ts with
  | nil => rfl
  | cons t ts ih =>
    have ht : t ∉ kws := h t (List.mem_cons_self _ _)
    simp only [bumpWeights, if_neg ht]
    exact ih fun t' ht' => h t' (List.mem_cons_of_mem _ ht')

/-- Counterexample to C4 as stated: on the store with no registered
categories the premise holds vacuously (there is no keyword to match), yet
`categorize_notes` does not return `"Others"` — it raises the uncaught
`ValueError` from `max()` on the empty scores dict (modelled by `none`). -/
theorem categorize_empty_store_not_others :
    categorize_notes ⟨[], [], []⟩ "stray note" ≠ some "Others" := by
  decide

/-- C4 (amended: at least one category must be registered, since otherwise
`categorize_notes` raises instead of returning): when no whitespace token of
the content case-insensitively matches any registered category's keywords,
`categorize_notes` returns `"Others"` and `add_note` completes leaving the
keyword-weights mapping unchanged. -/
theorem categorize_no_match_others_and_weights (st : NoteState) (content : String)
    (hne : st.categories ≠ [])
    (H : ∀ w ∈ pySplit content, ∀ p ∈ st.categories, pyLower w ∉ p.2.map pyLower) :
    categorize_notes st content = some "Others" ∧
    ∃ st', add_note st content = some st' ∧
      st'.keyword_weights = st.keyword_weights := by
  refine ⟨categorize_no_match st content hne H, ?_⟩
  by_cases h0 : pyStrip content = ""
  · refine ⟨st, ?_, rfl⟩
    simp [add_note, h0]
  · have Hs : ∀ w ∈ pySplit (pyStrip content), ∀ p ∈ st.categories,
        pyLower w ∉ p.2.map pyLower := by
      rw [pySplit_pyStrip]
      exact H
    have hcat : categorize_notes st (pyStrip content) = some "Others" :=
      categorize_no_match st (pyStrip content) hne Hs
    simp only [add_note, if_neg h0, hcat]
    refine ⟨_, rfl, ?_⟩
    set st₁ : NoteState :=
      { st with notes := st.notes ++ [⟨pyStrip content, "Others"⟩] } with hst₁
    have hcats₁ : st₁.categories = st.categories := rfl
    cases halo : alookup st.categories "Others" with
    | none =>
      simp [update_keyword_weights, hcats₁, halo, hst₁]
    | some kws =>
      have hmem : ("Others", kws) ∈ st.categories := alookup_mem _ _ _ halo
      have hnk : ∀ t ∈ pySplit (pyStrip content), t ∉ kws := by
        intro t ht htk
        exact Hs t ht ("Others", kws) hmem (List.mem_map_of_mem pyLower htk)
      simp [update_keyword_weights, hcats₁, halo,
        bumpWeights_no_match kws st₁.keyword_weights _ hnk, hst₁]

/-! Round-trip lemmas: `load_data` inverts `save_data`. -/

theorem decodeNote_encodeNote (n : Note) : decodeNote (encodeNote n) = some n := by
  cases n
  rfl

theorem decodeList_encodeNote (ns : List Note) :
    decodeList decodeNote (ns.map encodeNote) = some ns := by
  induction ns with
  | nil => rfl
  | cons n ns ih => simp [decodeList, decodeNote_encodeNote, ih]

theorem decodeList_str (ks : List String) :
    decodeList (fun j => match j with | .str s => some s | _ => none)
      (ks.map Json.str) = some ks := by
  induction ks with
  | nil => rfl
  | cons k ks ih => simp [decodeList, ih]

theorem decodeCat_encode (p : String × List String) :
    decodeCat (p.1, .arr (p.2.map Json.str)) = some p := by
  obtain ⟨name, ks⟩ := p
  simp [decodeCat, decodeList_str]

theorem decodeBindings_cats (cs : List (String × List String)) :
    decodeBindings decodeCat
      (cs.map (fun p => (p.1, Json.arr (p.2.map Json.str)))) = some cs := by
  induction cs with
  | nil => rfl
  | cons p cs ih => simp [decodeBindings, decodeCat_encode, ih]

theorem decodeBindings_weights (ws : List (String × Int)) :
    decodeBindings decodeWeight (ws.map (fun p => (p.1, Json.num p.2)))
      = some ws := by
  induction ws with
  | nil => rfl
  | cons p ws ih =>
    obtain ⟨w, n⟩ := p
    simp [decodeBindings, decodeWeight, ih]

/-- Reading back the document written by `save_data` restores the state. -/
theorem load_data_save_data (st : NoteState) :
    load_data (save_data st) = some st := by
  obtain ⟨notes, cats, weights⟩ := st
  simp [save_data, load_data, decodeList_encodeNote, decodeBindings_cats,
    decodeBindings_weights]

/-! Claim theorems C6 and C7. -/

/-- C7: a save/load round trip reproduces an equivalent state — the notes
sequence, the category mapping (keyword-list order included), and the
keyword-weights mapping are all unchanged. -/
theorem save_load_roundtrip (st : NoteState) :
    ∃ st', load_data (save_data st) = some st' ∧
      st'.notes = st.notes ∧ st'.categories = st.categories ∧
      st'.keyword_weights = st.keyword_weights :=
  ⟨st, load_data_save_data st, rfl, rfl, rfl⟩

/-- C6: for a non-empty trimmed name that is not yet registered and a
keyword list that is non-empty after trimming, `add_category` stores under
the trimmed name exactly the trimmed keywords in order with empty entries
dropped, and a save/load round trip preserves the resulting state (hence
that keyword list). -/
theorem add_category_valid_roundtrip (st : NoteState) (name : String)
    (keywords : List String)
    (hname : pyStrip name ≠ "")
    (hkws : (keywords.map pyStrip).filter (fun kw => kw ≠ "") ≠ [])
    (hnew : alookup st.categories (pyStrip name) = none) :
    alookup (add_category st name keywords).categories (pyStrip name)
        = some ((keywords.map pyStrip).filter (fun kw => kw ≠ "")) ∧
    load_data (save_data (add_category st name keywords))
        = some (add_category st name keywords) := by
  refine ⟨?_, load_data_save_data _⟩
  simp only [add_category, if_neg hname, if_neg hkws, hnew, Option.isSome_none,
    Bool.false_eq_true, if_false]
  rw [alookup_append_of_none _ _ _ hnew]
  simp [alookup]

/-- Witness for C6: adding category `" Work "` with keywords
`["  meeting ", "", "deadline "]` stores `Work ↦ [meeting, deadline]`, and
the state survives the save/load round trip. -/
theorem add_category_valid_roundtrip_witness :
    alookup (add_category ⟨[], [], []⟩ " Work "
        ["  meeting ", "", "deadline "]).categories "Work"
      = some ["meeting", "deadline"] ∧
    load_data (save_data (add_category ⟨[], [], []⟩ " Work "
        ["  meeting ", "", "deadline "]))
      = some (add_category ⟨[], [], []⟩ " Work " ["  meeting ", "", "deadline "]) :=
  add_category_valid_roundtrip ⟨[], [], []⟩ " Work "
    ["  meeting ", "", "deadline "] (by decide) (by decide) (by decide)

/-- Witness for C4 (amended): on a store with category `Work ↦ [meeting]`,
the note `"hello world"` matches nothing, is filed under `"Others"`, and
`add_note` leaves the (empty) weights empty. -/
theorem categorize_no_match_others_and_weights_witness :
    categorize_notes ⟨[], [("Work", ["meeting"])], []⟩ "hello world"
        = some "Others" ∧
    ∃ st', add_note ⟨[], [("Work", ["meeting"])], []⟩ "hello world" = some st' ∧
      st'.keyword_weights = [] :=
  categorize_no_match_others_and_weights ⟨[], [("Work", ["meeting"])], []⟩
    "hello world" (by decide) (by decide)

/-! Claim theorem C8: search. -/

/-- C8: searching with a keyword that trims to empty returns the empty
sequence (with a reported error); otherwise the result consists of exactly
the stored notes whose content contains the trimmed keyword as a
case-insensitive substring, in their original stored order (the result is a
sublist of the notes sequence). -/
theorem search_notes_spec (st : NoteState) (keyword : String) :
    (pyStrip keyword = "" → search_notes st keyword = []) ∧
    (pyStrip keyword ≠ "" →
      (∀ n, n ∈ search_notes st keyword ↔
        n ∈ st.notes ∧
          strContains (pyLower n.content) (pyLower (pyStrip keyword)) = true) ∧
      (search_notes st keyword).Sublist st.notes) := by
  constructor
  · intro h
    simp [search_notes, h]
  · intro h
    constructor
    · intro n
      simp [search_notes, h, List.mem_filter]
    · simp only [search_notes, if_neg h]
      exact List.filter_sublist _

/-- Witness for C8: whitespace keyword yields `[]`; keyword `"milk"` finds
the note `"Buy Milk"` case-insensitively. -/
theorem search_notes_spec_witness :
    search_notes ⟨[⟨"Buy Milk", "Others"⟩], [], []⟩ "  " = [] ∧
    (⟨"Buy Milk", "Others"⟩ : Note)
      ∈ search_notes ⟨[⟨"Buy Milk", "Others"⟩], [], []⟩ "milk" := by
  constructor
  · exact (search_notes_spec ⟨[⟨"Buy Milk", "Others"⟩], [], []⟩ "  ").1 (by decide)
  · exact (((search_notes_spec ⟨[⟨"Buy Milk", "Others"⟩], [], []⟩ "milk").2
      (by decide)).1 ⟨"Buy Milk", "Others"⟩).mpr ⟨by decide, by decide⟩

/-! Lemmas for the C9 invariant. -/

theorem update_keyword_weights_frame (st : NoteState) (ws : List String)
    (c : String) :
    (update_keyword_weights st ws c).notes = st.notes ∧
    (update_keyword_weights st ws c).categories = st.categories := by
  cases h : alookup st.categories c <;> simp [update_keyword_weights, h]

theorem alookup_isSome_of_mem {α : Type} (l : List (String × α)) (p : String × α)
    (hp : p ∈ l) : (alookup l p.1).isSome := by
  induction l with
  | nil => simp at hp
  | cons q rest ih =>
    obtain ⟨a, b⟩ := q
    show (if a = p.1 then some b else alookup rest p.1).isSome
    by_cases ha : a = p.1
    · rw [if_pos ha]
      rfl
    · rw [if_neg ha]
      rcases List.mem_cons.mp hp with he | he
      · exact absurd (congrArg Prod.fst he.symm) ha
      · exact ih he

theorem alookup_isSome_append {α : Type} (l m : List (String × α)) (k : String)
    (h : (alookup l k).isSome) : (alookup (l ++ m) k).isSome := by
  cases hv : alookup l k with
  | none => rw [hv] at h; cases h
  | some v => rw [alookup_append_of_some l m k v hv]; rfl

/-- Any category name `categorize_notes` can return is the sentinel
`"Others"` or a registered category. -/
theorem categorize_valid_category (st : NoteState) (content : String)
    (cat : String) (h : categorize_notes st content = some cat) :
    cat = "Others" ∨ (alookup st.categories cat).isSome := by
  have h' : (match maxKey (st.categories.map
      (fun p => (p.1, categoryScore st.keyword_weights
        ((pySplit content).map pyLower) p.2))) with
    | none => none
    | some (c, v) => if v = 0 then some "Others" else some c) = some cat := h
  cases hm : maxKey (st.categories.map
      (fun p => (p.1, categoryScore st.keyword_weights
        ((pySplit content).map pyLower) p.2))) with
  | none =>
    rw [hm] at h'
    cases h'
  | some p =>
    obtain ⟨k, v⟩ := p
    rw [hm] at h'
    have h'' : (if v = 0 then some "Others" else some k) = some cat := h'
    by_cases hv : v = 0
    · rw [if_pos hv] at h''
      cases h''
      exact Or.inl rfl
    · rw [if_neg hv] at h''
      cases h''
      right
      have hmem := maxKey_mem _ _ hm
      obtain ⟨q, hq, he⟩ := List.mem_map.mp hmem
      have hk : q.1 = cat := congrArg Prod.fst he
      rw [← hk]
      exact alookup_isSome_of_mem _ _ hq

/-- Either `add_category` rejects (no state change) or it appends one new
binding to the category mapping, leaving the notes untouched. -/
theorem add_category_cases (st : NoteState) (name : String)
    (keywords : List String) :
    add_category st name keywords = st ∨
    ∃ c kl, add_category st name keywords
      = { st with categories := st.categories ++ [(c, kl)] } := by
  simp only [add_category]
  split_ifs
  · exact Or.inl rfl
  · exact Or.inl rfl
  · exact Or.inl rfl
  · exact Or.inr ⟨_, _, rfl⟩

theorem execOp_preserves_noteInv (st : NoteState) (op : Op) (st' : NoteState)
    (hinv : noteInv st) (h : execOp st op = some st') : noteInv st' := by
  cases op with
  | addCategory name kws =>
    have hst' : st' = add_category st name kws := by
      cases h
      rfl
    subst hst'
    rcases add_category_cases st name kws with he | ⟨c, kl, he⟩
    · rw [he]
      exact hinv
    · rw [he]
      intro n hn
      rcases hinv n hn with h1 | h1
      · exact Or.inl h1
      · exact Or.inr (alookup_isSome_append _ _ _ h1)
  | addNote content =>
    have h' : add_note st content = some st' := h
    by_cases h0 : pyStrip content = ""
    · simp only [add_note, if_pos h0, Option.some.injEq] at h'
      rw [← h']
      exact hinv
    · simp only [add_note, if_neg h0] at h'
      cases hc : categorize_notes st (pyStrip content) with
      | none =>
        rw [hc] at h'
        cases h'
      | some cat =>
        rw [hc] at h'
        have h'' : some (update_keyword_weights
            { st with notes := st.notes ++ [⟨pyStrip content, cat⟩] }
            (pySplit (pyStrip content)) cat) = some st' := h'
        cases h''
        intro n hn
        have hframe := update_keyword_weights_frame
          { st with notes := st.notes ++ [⟨pyStrip content, cat⟩] }
          (pySplit (pyStrip content)) cat
        rw [hframe.1] at hn
        rw [hframe.2]
        have hn' : n ∈ st.notes ++ [(⟨pyStrip content, cat⟩ : Note)] := hn
        show n.category = "Others"
          ∨ (alookup st.categories n.category).isSome
        rcases List.mem_append.mp hn' with h1 | h1
        · exact hinv n h1
        · have : n = ⟨pyStrip content, cat⟩ := by
            cases List.mem_singleton.mp h1
            rfl
          subst this
          exact categorize_valid_category st (pyStrip content) cat hc
  | viewNotes =>
    cases h
    exact hinv
  | searchNotes kw =>
    cases h
    exact hinv
  | exportNotes f =>
    cases h
    exact hinv

theorem runOps_noteInv (ops : List Op) (st₀ st : NoteState) (hinv : noteInv st₀)
    (h : runOps st₀ ops = some st) : noteInv st := by
  induction ops generalizing st₀ with
  | nil =>
    have h' : some st₀ = some st := h
    cases h'
    exact hinv
  | cons op ops ih =>
    simp only [runOps] at h
    cases he : execOp st₀ op with
    | none =>
      rw [he] at h
      cases h
    | some st₁ =>
      rw [he] at h
      exact ih st₁ (execOp_preserves_noteInv st₀ op st₁ hinv he) h

/-! Claim theorem C9. -/

/-- C9: starting from the empty store, after any sequence of menu
operations (addCategory, addNote, viewNotes, searchNotes, exportNotes) that
completes, every stored note is filed under a currently registered category
or under the sentinel `"Others"`. -/
theorem runOps_invariant (ops : List Op) (st : NoteState)
    (h : runOps emptyStore ops = some st) : noteInv st :=
  runOps_noteInv ops emptyStore st (by intro n hn; cases hn) h

/-- Witness for C9: a two-operation run (add a category, add a matching
note) whose final state satisfies the invariant. -/
theorem runOps_invariant_witness :
    noteInv ⟨[⟨"team meeting", "Work"⟩], [("Work", ["meeting"])],
      [("meeting", 1)]⟩ :=
  runOps_invariant [Op.addCategory "Work" ["meeting"], Op.addNote "team meeting"]
    ⟨[⟨"team meeting", "Work"⟩], [("Work", ["meeting"])], [("meeting", 1)]⟩
    (by decide)

/-! Lemmas and claim theorem C10: `categorize_notes` consults the weight
table only at lowercased keys. -/

theorem toLower_isUpper_false (c : Char) : (Char.toLower c).isUpper = false := by
  unfold Char.toLower
  by_cases h : c.toNat ≥ 65 ∧ c.toNat ≤ 90
  · rw [if_pos h]
    obtain ⟨h1, h2⟩ := h
    interval_cases hn : c.toNat <;> decide
  · rw [if_neg h]
    unfold Char.isUpper
    simp only [Char.toNat, UInt32.le_def, BitVec.le_def, UInt32.toNat] at h
    simp only [Bool.and_eq_false_iff, decide_eq_false_iff_not, UInt32.le_def,
      BitVec.le_def]
    by_cases h1 : (65 : UInt32).toBitVec.toNat ≤ c.val.toBitVec.toNat
    · right
      intro h2
      exact h ⟨by exact_mod_cast h1, by exact_mod_cast h2⟩
    · left
      exact h1

/-- The output of Python `str.lower()` contains no ASCII uppercase letter. -/
theorem hasUpper_pyLower (s : String) : hasUpper (pyLower s) = false := by
  show (s.data.map Char.toLower).any Char.isUpper = false
  rw [List.any_map]
  rw [List.any_eq_false]
  intro c hc
  simp [Function.comp, toLower_isUpper_false]

theorem categoryScore_foldl_agree (ws1 ws2 : List (String × Int))
    (kws : List String)
    (hagree : ∀ w, hasUpper w = false → alookup ws1 w = alookup ws2 w)
    (words : List String) (hw : ∀ w ∈ words, hasUpper w = false) (acc : Int) :
    words.foldl
        (fun acc w => if w ∈ kws.map pyLower then acc + alookupD ws1 w 1 else acc)
        acc
      = words.foldl
        (fun acc w => if w ∈ kws.map pyLower then acc + alookupD ws2 w 1 else acc)
        acc := by
  induction words generalizing acc with
  | nil => rfl
  | cons w words ih =>
    have hw0 : hasUpper w = false := hw w (List.mem_cons_self _ _)
    have hw' : ∀ w' ∈ words, hasUpper w' = false :=
      fun w' h' => hw w' (List.mem_cons_of_mem _ h')
    have hD : alookupD ws1 w 1 = alookupD ws2 w 1 := by
      rw [alookupD, alookupD, hagree w hw0]
    simp only [List.foldl_cons, hD]
    exact ih hw' _

/-- Two weight tables agreeing on all uppercase-free keys give every
category the same score. -/
theorem categoryScore_weights_agree (ws1 ws2 : List (String × Int))
    (words : List String) (hw : ∀ w ∈ words, hasUpper w = false)
    (hagree : ∀ w, hasUpper w = false → alookup ws1 w = alookup ws2 w)
    (kws : List String) :
    categoryScore ws1 words kws = categoryScore ws2 words kws :=
  categoryScore_foldl_agree ws1 ws2 kws hagree words hw 0

/-- C10: `categorize_notes` reads the weight table only at lowercased token
keys, so two states with the same categories whose keyword-weight tables
agree on every key free of ASCII uppercase letters categorize every note
content identically; weight entries under keys containing an uppercase
letter (the ones `update_keyword_weights` accumulates for uppercase tokens)
never influence the decision. -/
theorem categorize_ignores_uppercase_weight_keys (st1 st2 : NoteState)
    (content : String) (hcats : st1.categories = st2.categories)
    (hagree : ∀ w, hasUpper w = false →
      alookup st1.keyword_weights w = alookup st2.keyword_weights w) :
    categorize_notes st1 content = categorize_notes st2 content := by
  have hwords : ∀ w ∈ (pySplit content).map pyLower, hasUpper w = false := by
    intro w hw
    obtain ⟨t, _, rfl⟩ := List.mem_map.mp hw
    exact hasUpper_pyLower t
  have hscores : st1.categories.map
      (fun p => (p.1, categoryScore st1.keyword_weights
        ((pySplit content).map pyLower) p.2))
      = st2.categories.map
      (fun p => (p.1, categoryScore st2.keyword_weights
        ((pySplit content).map pyLower) p.2)) := by
    rw [← hcats]
    apply List.map_congr_left
    intro p _
    rw [categoryScore_weights_agree st1.keyword_weights st2.keyword_weights
      _ hwords hagree p.2]
  show (match maxKey (st1.categories.map
      (fun p => (p.1, categoryScore st1.keyword_weights
        ((pySplit content).map pyLower) p.2))) with
    | none => none
    | some (c, v) => if v = 0 then some "Others" else some c)
    = (match maxKey (st2.categories.map
      (fun p => (p.1, categoryScore st2.keyword_weights
        ((pySplit content).map pyLower) p.2))) with
    | none => none
    | some (c, v) => if v = 0 then some "Others" else some c)
  rw [hscores]

/-- Witness for C10: a weight table containing only the uppercase-keyed
binding `MEETING ↦ 5` categorizes like the empty weight table. -/
theorem categorize_ignores_uppercase_weight_keys_witness :
    categorize_notes ⟨[], [("Work", ["meeting"])], [("MEETING", 5)]⟩
        "MEETING meeting"
      = categorize_notes ⟨[], [("Work", ["meeting"])], []⟩ "MEETING meeting" := by
  apply categorize_ignores_uppercase_weight_keys
  · rfl
  · intro w hw
    have hne : "MEETING" ≠ w := by
      intro he
      rw [← he] at hw
      exact absurd hw (by decide)
    show (if "MEETING" = w then some (5 : Int) else alookup [] w) = alookup [] w
    rw [if_neg hne]
